import Mathlib

/-!
Verification development for the FR encoder-decoder forecasting engine
(`src/fr.py` of `phit3/forecasting_turbulent_heat_flux`).

Tensors of shape `(s, b, d)` are embedded as `List (List (List ℚ))`
(step-major, then batch, then feature), matching the `(steps, batch,
dimensions)` layout the code maintains at every tensor boundary.  A tensor
of shape `(1, b, d)` (one step) is embedded as its single `(b, d)` slice of
type `List (List ℚ)`.  The GRU cells of `nn.GRU` and the numerical loss
function are external torch library code; they are embedded as function
parameters carrying only their shape contracts, while everything written in
`fr.py` itself (loops, reshapes, loss accumulation, scheduler wiring,
checkpoint scanning) is translated operation by operation.
-/

/-- Shape predicate for a `(b, d)` matrix (one step of a batch). -/
def mshape (m : List (List ℚ)) (b d : ℕ) : Prop :=
  m.length = b ∧ ∀ v ∈ m, v.length = d

instance (m : List (List ℚ)) (b d : ℕ) : Decidable (mshape m b d) := by
  unfold mshape
  exact inferInstance

/-- Shape predicate for an `(s, b, d)` tensor. -/
def tshape (t : List (List (List ℚ))) (s b d : ℕ) : Prop :=
  t.length = s ∧ ∀ m ∈ t, mshape m b d

instance (t : List (List (List ℚ))) (s b d : ℕ) : Decidable (tshape t s b d) := by
  unfold tshape
  exact inferInstance

/-- Dot product, truncating to the shorter operand (only used at matching
lengths). -/
def dot (xs ys : List ℚ) : ℚ := (List.zipWith (· * ·) xs ys).sum

/-- `nn.Linear(latent_dim, dimensions)` applied to one latent vector:
`W x + bias`, one output coordinate per weight row / bias entry. -/
def linearApply (W : List (List ℚ)) (bias : List ℚ) (x : List ℚ) : List ℚ :=
  List.zipWith (fun row bi => dot row x + bi) W bias

/-- `FR.Decoder` (fr.py lines 90-109): hyperparameters, the single-layer
GRU cell (external torch code, abstracted as a function from input vector
and hidden vector to the next hidden vector) and the linear projection
weights. -/
structure Decoder where
  output_steps : ℕ
  batch_size : ℕ
  dimensions : ℕ
  latent_dim : ℕ
  gruCell : List ℚ → List ℚ → List ℚ
  linW : List (List ℚ)
  linBias : List ℚ

/-- One application of `decoder_gru` to a `(1, b, d)` input and `(1, b, L)`
hidden state: the cell is applied batch-element-wise. -/
def Decoder.gruStep (D : Decoder) (inp hid : List (List ℚ)) : List (List ℚ) :=
  List.zipWith D.gruCell inp hid

/-- `self.linear(decoder_gru_out)`: the projection applied to every batch
element of the `(1, b, L)` GRU output. -/
def Decoder.project (D : Decoder) (hid : List (List ℚ)) : List (List ℚ) :=
  hid.map (linearApply D.linW D.linBias)

/-- The `for j in range(self.output_steps)` loop of `FR.Decoder.forward`
(fr.py lines 102-108), with the iteration count made an explicit argument:
run the GRU, project, append the projection to the prediction list and feed
it back as the next input. -/
def Decoder.decodeLoop (D : Decoder) :
    ℕ → List (List ℚ) → List (List ℚ) → (List (List (List ℚ))) × List (List ℚ)
  | 0, _, states => ([], states)
  | n + 1, nextInput, states =>
    let states2 := D.gruStep nextInput states
    let out := D.project states2
    let rest := D.decodeLoop n out states2
    (out :: rest.1, rest.2)

/-- `FR.Decoder.forward` (fr.py lines 100-109): `torch.cat` of the
per-step predictions along the step axis (list of `(b, d)` slices) together
with the final hidden state. -/
def Decoder.forward (D : Decoder) (firstInput states : List (List ℚ)) :
    (List (List (List ℚ))) × List (List ℚ) :=
  D.decodeLoop D.output_steps firstInput states

/-- Step-indexed unrolling of the autoregression: after `k` iterations,
the pair (current fed-back input, current hidden state).  The fed-back
input after `k + 1` steps is the projection of the hidden state obtained by
applying the recurrent unit to the previous pair. -/
def Decoder.autoreg (D : Decoder) (firstInput states : List (List ℚ)) :
    ℕ → (List (List ℚ)) × List (List ℚ)
  | 0 => (firstInput, states)
  | k + 1 =>
    let p := D.autoreg firstInput states k
    let h := D.gruStep p.1 p.2
    (D.project h, h)

lemma decodeLoop_length (D : Decoder) (n : ℕ) : ∀ (inp st : List (List ℚ)),
    ((D.decodeLoop n inp st).1).length = n := by
  induction n with
  | zero => intro inp st; rfl
  | succ k ih => intro inp st; simp [Decoder.decodeLoop, ih]

lemma autoreg_shift (D : Decoder) (inp st : List (List ℚ)) :
    ∀ k, D.autoreg inp st (k + 1) =
      D.autoreg (D.project (D.gruStep inp st)) (D.gruStep inp st) k := by
  intro k
  induction k with
  | zero => rfl
  | succ m ih =>
    show (let p := D.autoreg inp st (m + 1);
          let h := D.gruStep p.1 p.2; (D.project h, h)) = _
    rw [ih]
    rfl

lemma decodeLoop_eq_autoreg (D : Decoder) : ∀ (n : ℕ) (inp st : List (List ℚ)),
    (D.decodeLoop n inp st).1 =
      (List.range n).map (fun j => (D.autoreg inp st (j + 1)).1)
    ∧ (D.decodeLoop n inp st).2 = (D.autoreg inp st n).2 := by
  intro n
  induction n with
  | zero => intro inp st; exact ⟨rfl, rfl⟩
  | succ k ih =>
    intro inp st
    have h1 := (ih (D.project (D.gruStep inp st)) (D.gruStep inp st)).1
    have h2 := (ih (D.project (D.gruStep inp st)) (D.gruStep inp st)).2
    constructor
    · show D.project (D.gruStep inp st) ::
          (D.decodeLoop k (D.project (D.gruStep inp st)) (D.gruStep inp st)).1 = _
      rw [List.range_succ_eq_map, List.map_cons, List.map_map, h1]
      congr 1
      apply List.map_congr_left
      intro j _
      show (D.autoreg (D.project (D.gruStep inp st)) (D.gruStep inp st) (j + 1)).1 = _
      rw [Function.comp_apply, ← autoreg_shift]
    · show (D.decodeLoop k (D.project (D.gruStep inp st)) (D.gruStep inp st)).2 = _
      rw [h2, ← autoreg_shift]

lemma zipWith_cell_shape (cell : List ℚ → List ℚ → List ℚ) (d L : ℕ)
    (hcell : ∀ x h, x.length = d → h.length = L → (cell x h).length = L) :
    ∀ (xs ys : List (List ℚ)), xs.length = ys.length →
      (∀ x ∈ xs, x.length = d) → (∀ y ∈ ys, y.length = L) →
      mshape (List.zipWith cell xs ys) xs.length L := by
  intro xs
  induction xs with
  | nil =>
    intro ys _ _ _
    exact ⟨by simp, by intro v hv; simp at hv⟩
  | cons x xs ih =>
    intro ys hlen hx hy
    cases ys with
    | nil => simp at hlen
    | cons y ys =>
      have hlen2 : xs.length = ys.length := by simpa using hlen
      have hrec := ih ys hlen2 (fun a ha => hx a (List.mem_cons_of_mem _ ha))
        (fun a ha => hy a (List.mem_cons_of_mem _ ha))
      constructor
      · simpa using hrec.1
      · intro v hv
        rcases List.mem_cons.mp hv with h | h
        · subst h
          exact hcell x y (hx x (List.mem_cons_self _ _)) (hy y (List.mem_cons_self _ _))
        · exact hrec.2 v h

lemma project_shape (D : Decoder) (hW : D.linW.length = D.dimensions)
    (hb : D.linBias.length = D.dimensions) (m : List (List ℚ)) :
    mshape (D.project m) m.length D.dimensions := by
  constructor
  · simp [Decoder.project]
  · intro v hv
    simp only [Decoder.project, List.mem_map] at hv
    obtain ⟨x, -, rfl⟩ := hv
    simp [linearApply, hW, hb]

lemma decodeLoop_shape (D : Decoder)
    (hcell : ∀ x h, x.length = D.dimensions → h.length = D.latent_dim →
      (D.gruCell x h).length = D.latent_dim)
    (hW : D.linW.length = D.dimensions) (hb : D.linBias.length = D.dimensions) :
    ∀ (n : ℕ) (inp st : List (List ℚ)) (b : ℕ),
      mshape inp b D.dimensions → mshape st b D.latent_dim →
      tshape (D.decodeLoop n inp st).1 n b D.dimensions
      ∧ mshape (D.decodeLoop n inp st).2 b D.latent_dim := by
  intro n
  induction n with
  | zero =>
    intro inp st b _ hs
    exact ⟨⟨rfl, fun m hm => absurd hm (List.not_mem_nil m)⟩, hs⟩
  | succ k ih =>
    intro inp st b hi hs
    have hst2 : mshape (D.gruStep inp st) b D.latent_dim := by
      have h := zipWith_cell_shape D.gruCell D.dimensions D.latent_dim hcell inp st
        (by rw [hi.1, hs.1]) hi.2 hs.2
      rw [hi.1] at h
      exact h
    have hout : mshape (D.project (D.gruStep inp st)) b D.dimensions := by
      have h := project_shape D hW hb (D.gruStep inp st)
      rw [hst2.1] at h
      exact h
    obtain ⟨h1, h2⟩ := ih (D.project (D.gruStep inp st)) (D.gruStep inp st) b hout hst2
    refine ⟨⟨?_, ?_⟩, h2⟩
    · show (D.project (D.gruStep inp st) ::
        (D.decodeLoop k (D.project (D.gruStep inp st)) (D.gruStep inp st)).1).length = k + 1
      simp [h1.1]
    · intro m hm
      have hm2 : m ∈ D.project (D.gruStep inp st) ::
          (D.decodeLoop k (D.project (D.gruStep inp st)) (D.gruStep inp st)).1 := hm
      rcases List.mem_cons.mp hm2 with h | h
      · subst h; exact hout
      · exact h1.2 m h

/-- Claim C1: for every valid first input of shape `(1, batch_size,
dimensions)` and initial hidden state, `Decoder.forward` performs exactly
`output_steps` autoregressive iterations, step `j` applying the recurrent
unit and then the linear projection to the fed-back input (the projection
of step `j - 1`), and returns predictions of shape `(output_steps,
batch_size, dimensions)` together with the final hidden state; at
`output_steps = 1` this is a single projection. -/
theorem decoder_forward_autoregressive (D : Decoder) (inp st : List (List ℚ))
    (hcell : ∀ x h, x.length = D.dimensions → h.length = D.latent_dim →
      (D.gruCell x h).length = D.latent_dim)
    (hW : D.linW.length = D.dimensions) (hb : D.linBias.length = D.dimensions)
    (hinp : mshape inp D.batch_size D.dimensions)
    (hst : mshape st D.batch_size D.latent_dim) :
    tshape (D.forward inp st).1 D.output_steps D.batch_size D.dimensions
    ∧ (D.forward inp st).1 =
        (List.range D.output_steps).map (fun j => (D.autoreg inp st (j + 1)).1)
    ∧ (D.forward inp st).2 = (D.autoreg inp st D.output_steps).2 := by
  refine ⟨?_, ?_, ?_⟩
  · exact (decodeLoop_shape D hcell hW hb D.output_steps inp st D.batch_size hinp hst).1
  · exact (decodeLoop_eq_autoreg D D.output_steps inp st).1
  · exact (decodeLoop_eq_autoreg D D.output_steps inp st).2

/-- A one-step decoder over scalars whose recurrent cell returns the hidden
state unchanged; used to instantiate the C1 theorem on concrete data. -/
def decW : Decoder :=
  ⟨1, 1, 1, 1, fun _ h => h, [[1]], [0]⟩

/-- Witness for C1: the theorem applied at `output_steps = 1` (the boundary
case), batch 1, dimension 1, with every hypothesis discharged on concrete
data. -/
theorem decoder_forward_autoregressive_witness :
    mshape [[(1 : ℚ)]] 1 1 ∧ mshape [[(0 : ℚ)]] 1 1 ∧
    (tshape (decW.forward [[1]] [[0]]).1 1 1 1
     ∧ (decW.forward [[1]] [[0]]).1 =
         (List.range 1).map (fun j => (decW.autoreg [[1]] [[0]] (j + 1)).1)
     ∧ (decW.forward [[1]] [[0]]).2 = (decW.autoreg [[1]] [[0]] 1).2) :=
  ⟨by decide, by decide,
    decoder_forward_autoregressive decW [[1]] [[0]]
      (fun _ _ _ hh => hh) (by decide) (by decide) (by decide) (by decide)⟩

/-- `FR.Encoder` (fr.py lines 75-88): hyperparameters plus the single-layer
GRU cell (external torch code, abstracted with its shape contract). -/
structure Encoder where
  input_steps : ℕ
  batch_size : ℕ
  dimensions : ℕ
  latent_dim : ℕ
  gruCell : List ℚ → List ℚ → List ℚ

/-- A single-layer GRU run over a step-major input sequence: each step
applies the cell batch-element-wise to the current hidden state; returns
the per-step hidden states and the final hidden state. -/
def encLoop (cell : List ℚ → List ℚ → List ℚ) :
    List (List (List ℚ)) → List (List ℚ) → (List (List (List ℚ))) × List (List ℚ)
  | [], h => ([], h)
  | x :: xs, h =>
    let h2 := List.zipWith cell x h
    let rest := encLoop cell xs h2
    (h2 :: rest.1, rest.2)

/-- `FR.Encoder.forward` (fr.py lines 84-88): the GRU over the reshaped
`(input_steps, batch_size, dimensions)` input. -/
def Encoder.forward (E : Encoder) (inputs : List (List (List ℚ)))
    (states : List (List ℚ)) : (List (List (List ℚ))) × List (List ℚ) :=
  encLoop E.gruCell inputs states

/-- `np.swapaxes(x, 0, 1)` on a rectangular 3-axis array: exchange the two
outer axes. -/
def swapaxes01 (t : List (List (List ℚ))) : List (List (List ℚ)) :=
  (List.range (t.headD []).length).map (fun i => t.map (fun row => row.getD i []))

/-- The FR hyperparameters (`fr.py` constructor via `Base`, used by
`_build_model`), together with the configured loss function, which is an
external collaborator taking one `(batch_size, dimensions)` predicted step
and one target step to a scalar. -/
structure FRConfig where
  input_steps : ℕ
  output_steps : ℕ
  batch_size : ℕ
  dimensions : ℕ
  latent_dim : ℕ
  learning_rate : ℚ
  gamma : ℚ
  plateau : ℕ
  lossFct : List (List ℚ) → List (List ℚ) → ℚ

/-- The trainable parameters of the model: the two GRU cells (their learned
weights abstracted into the cell functions) and the decoder linear layer. -/
structure Params where
  encCell : List ℚ → List ℚ → List ℚ
  decCell : List ℚ → List ℚ → List ℚ
  linW : List (List ℚ)
  linBias : List ℚ

/-- `FR._build_model` (fr.py line 128): the encoder built from the current
hyperparameters and parameters. -/
def encoder_model (cfg : FRConfig) (P : Params) : Encoder :=
  ⟨cfg.input_steps, cfg.batch_size, cfg.dimensions, cfg.latent_dim, P.encCell⟩

/-- `FR._build_model` (fr.py line 133): the decoder built from the current
hyperparameters and parameters. -/
def decoder_model (cfg : FRConfig) (P : Params) : Decoder :=
  ⟨cfg.output_steps, cfg.batch_size, cfg.dimensions, cfg.latent_dim,
    P.decCell, P.linW, P.linBias⟩

/-- One `((encoder_input, decoder_seed), target)` tuple as yielded by the
batch source, each component in the `(batch, steps, dimensions)` layout the
generators produce (the code swaps axes 0 and 1 before use). -/
structure Batch where
  encInputs : List (List (List ℚ))
  decSeed : List (List (List ℚ))
  targets : List (List (List ℚ))

/-- `FR._do_batch` (fr.py lines 149-162).  The random initial hidden state
drawn by `torch.randn` is passed in explicitly.  The decoder seed component
of the batch is destructured but never read; the decoder is fed the last
step of the swapped encoder input.  The loss is the sum over
`zip(predictions, targets)` of the configured loss function. -/
def doBatch (cfg : FRConfig) (P : Params) (b : Batch) (initStates : List (List ℚ)) :
    (List (List (List ℚ))) × (List (List (List ℚ))) × ℚ :=
  let encoderInputs := swapaxes01 b.encInputs
  let states := ((encoder_model cfg P).forward encoderInputs initStates).2
  let targets := swapaxes01 b.targets
  let firstInput := encoderInputs.getLastD []
  let predictions := ((decoder_model cfg P).forward firstInput states).1
  let loss := (List.zipWith cfg.lossFct predictions targets).sum
  (predictions, targets, loss)

/-- The training phase of `FR._do_epoch` (fr.py lines 170-182), with the
number of steps still to run as fuel (the loop body breaks once
`batch_number > train_steps`).  `upd` stands for `loss.backward()` followed
by the two `optimizer.step()` calls: the external torch autograd and Adam
update of the parameters and of the optimizer state `ω`, applied after the
loss of the batch is computed from the pre-update parameters.  The recorded
per-batch value is `loss / output_steps`. -/
def trainPhase {ω : Type} (cfg : FRConfig)
    (upd : Params → ω → Batch → List (List ℚ) → Params × ω) :
    ℕ → Params → ω → List (Batch × List (List ℚ)) → Params × ω × List ℚ
  | 0, P, O, _ => (P, O, [])
  | _ + 1, P, O, [] => (P, O, [])
  | n + 1, P, O, pr :: rest =>
    let r := doBatch cfg P pr.1 pr.2
    let t := upd P O pr.1 pr.2
    let out := trainPhase cfg upd n t.1 t.2 rest
    (out.1, out.2.1, (r.2.2 / (cfg.output_steps : ℚ)) :: out.2.2)

/-- The parameter/optimizer state reached after training on a list of
batches (used to state the closed form of the recorded training losses). -/
def paramsAfter {ω : Type} (upd : Params → ω → Batch → List (List ℚ) → Params × ω) :
    List (Batch × List (List ℚ)) → Params → ω → Params × ω
  | [], P, O => (P, O)
  | pr :: rest, P, O =>
    let t := upd P O pr.1 pr.2
    paramsAfter upd rest t.1 t.2

/-- The validation phase of `FR._do_epoch` (fr.py lines 184-193): the same
per-batch forward pass under `torch.no_grad()`, recording
`val_loss / output_steps`, with no backward pass and no optimizer step; the
parameter and optimizer state is threaded through unchanged. -/
def validPhase {ω : Type} (cfg : FRConfig) :
    ℕ → Params → ω → List (Batch × List (List ℚ)) → Params × ω × List ℚ
  | 0, P, O, _ => (P, O, [])
  | _ + 1, P, O, [] => (P, O, [])
  | n + 1, P, O, pr :: rest =>
    let r := doBatch cfg P pr.1 pr.2
    let out := validPhase cfg n P O rest
    (out.1, out.2.1, (r.2.2 / (cfg.output_steps : ℚ)) :: out.2.2)

/-- `np.mean` of a list of scalars. -/
def npMean (l : List ℚ) : ℚ := l.sum / (l.length : ℚ)

/-- The state of one `torch.optim.lr_scheduler.ReduceLROnPlateau` in mode
`min` (external torch library code, modelled after its documented
semantics) together with the learning rate of the optimizer it drives:
`best` is the best metric seen (`none` before the first step, standing for
infinity), `num_bad_epochs` counts epochs without sufficient improvement,
and once it exceeds `patience` the rate is multiplied by `factor`, floored
at `min_lr`, with updates smaller than `eps` skipped. -/
structure Plateau where
  factor : ℚ
  patience : ℕ
  min_lr : ℚ
  threshold : ℚ
  eps : ℚ
  best : Option ℚ
  num_bad_epochs : ℕ
  lr : ℚ

def Plateau.isBetter (s : Plateau) (current : ℚ) : Bool :=
  match s.best with
  | none => true
  | some b => decide (current < b * (1 - s.threshold))

def Plateau.reduceLr (s : Plateau) : Plateau :=
  let newLr := max (s.lr * s.factor) s.min_lr
  if s.eps < s.lr - newLr then { s with lr := newLr } else s

def Plateau.step (s : Plateau) (metric : ℚ) : Plateau :=
  let s1 := if s.isBetter metric then { s with best := some metric, num_bad_epochs := 0 }
    else { s with num_bad_epochs := s.num_bad_epochs + 1 }
  if s1.patience < s1.num_bad_epochs then { s1.reduceLr with num_bad_epochs := 0 } else s1

/-- `FR._build_model` (fr.py lines 129-137): both schedulers are built with
`mode=min`, `factor=gamma`, `patience=plateau`, `min_lr=3e-6` and the torch
defaults `threshold=1e-4`, `eps=1e-8`, over optimizers that both start at
`learning_rate`. -/
def mkScheduler (cfg : FRConfig) : Plateau :=
  ⟨cfg.gamma, cfg.plateau, 3 / 1000000, 1 / 10000, 1 / 100000000, none, 0,
    cfg.learning_rate⟩

/-- `FR.next_learning_rate` (fr.py lines 236-239): step the decoder
scheduler, then the encoder scheduler, both on `epoch_loss`, and return
`current_learning_rate`, which is the decoder optimizer learning rate
(fr.py lines 67-69). -/
def next_learning_rate (decSched encSched : Plateau) (epoch_loss : ℚ) :
    Plateau × Plateau × ℚ :=
  let d := decSched.step epoch_loss
  let e := encSched.step epoch_loss
  (d, e, d.lr)

/-- The per-epoch record produced by `FR._do_epoch`. -/
structure EpochResult (ω : Type) where
  params : Params
  opt : ω
  decSched : Plateau
  encSched : Plateau
  trainLosses : List ℚ
  validLosses : List ℚ
  epoch_loss : ℚ
  epoch_val_loss : ℚ
  lr : ℚ

/-- `FR._do_epoch` (fr.py lines 164-198): `train_steps` and `valid_steps`
are the floor divisions of the sample counts of the batch source by its
batch size; the training phase runs first, the validation phase follows on
the post-training state, the epoch losses are the `np.mean` of the
per-batch records, and `next_learning_rate` is called on the mean training
loss. -/
def doEpoch {ω : Type} (cfg : FRConfig)
    (upd : Params → ω → Batch → List (List ℚ) → Params × ω)
    (P : Params) (O : ω) (decSched encSched : Plateau)
    (trainPairs validPairs : List (Batch × List (List ℚ)))
    (train_samples valid_samples gen_batch_size : ℕ) : EpochResult ω :=
  let train_steps := train_samples / gen_batch_size
  let valid_steps := valid_samples / gen_batch_size
  let t := trainPhase cfg upd train_steps P O trainPairs
  let v := validPhase cfg valid_steps t.1 t.2.1 validPairs
  let eLoss := npMean t.2.2
  let evLoss := npMean v.2.2
  let n := next_learning_rate decSched encSched eLoss
  ⟨v.1, v.2.1, n.1, n.2.1, t.2.2, v.2.2, eLoss, evLoss, n.2.2⟩

/-- The pair of schedulers stepped together on the same per-epoch training
metric, as `fit_generator` does across a run: both start from
`_build_model`, and every epoch steps first the decoder scheduler and then
the encoder scheduler on `epoch_loss`. -/
def stepBoth (p : Plateau × Plateau) (m : ℚ) : Plateau × Plateau :=
  (p.1.step m, p.2.step m)

def schedulersAfter (cfg : FRConfig) (losses : List ℚ) : Plateau × Plateau :=
  losses.foldl stepBoth (mkScheduler cfg, mkScheduler cfg)

/-- `min` of a nonempty Python list (the empty case is unreachable behind
the `len == 0` guard). -/
def listMin : List ℚ → ℚ
  | [] => 0
  | x :: xs => xs.foldl min x

/-- The checkpoint gate of `FR.fit_generator` (fr.py line 208): save if
`all_val_losses` is empty or its minimum is strictly greater than the
current epoch mean validation loss. -/
def shouldSave (allValLosses : List ℚ) (epochValLoss : ℚ) : Bool :=
  allValLosses.isEmpty || decide (epochValLoss < listMin allValLosses)

/-- The save decisions of the epoch loop of `FR.fit_generator` (fr.py
lines 202-210): decide with the previous losses, then append the current
one. -/
def saveFlagsAux : List ℚ → List ℚ → List Bool
  | _, [] => []
  | prev, v :: rest => shouldSave prev v :: saveFlagsAux (prev ++ [v]) rest

def saveFlags (valLosses : List ℚ) : List Bool := saveFlagsAux [] valLosses

/-- A filesystem entry as seen by `os.listdir`: a regular file or a
directory with its contents. -/
inductive FsEntry where
  | file (name : String)
  | dir (name : String) (contents : List FsEntry)

/-- `os.path.isfile(dir_path/n)` over the listed contents of a directory. -/
def containsFile (n : String) (l : List FsEntry) : Bool :=
  l.any (fun e => match e with
    | .file m => m == n
    | .dir _ _ => false)

/-- The test of fr.py line 118 for one entry `f` of `checkpoint_dir`:
`os.path.isfile(f_path/encoder) or os.path.isfile(f_path/decoder)`, where
`f_path = checkpoint_dir/f`; it can only hold when `f` is itself a
directory containing such a regular file. -/
def entryHasNestedBlob : FsEntry → Bool
  | .file _ => false
  | .dir _ cs => containsFile "encoder" cs || containsFile "decoder" cs

inductive CkptOutcome where
  | ok
  | fileExistsError
  | isADirectoryError
deriving DecidableEq

/-- `FR._build_checkpoint` (fr.py lines 114-124) after `os.makedirs`,
scanning the listed contents of `checkpoint_dir` in order: on the first
entry whose nested test fires, either `os.remove(f_path)` is attempted —
and `f_path` is necessarily a directory there, so the call raises
IsADirectoryError — or FileExistsError is raised; if no entry fires, the
function returns the directory untouched. -/
def buildCheckpointScan (force_new : Bool) : List FsEntry → CkptOutcome
  | [] => .ok
  | e :: rest =>
    if entryHasNestedBlob e then
      if force_new then .isADirectoryError else .fileExistsError
    else buildCheckpointScan force_new rest

def buildCheckpoint (contents : List FsEntry) (force_new : Bool) : CkptOutcome :=
  buildCheckpointScan force_new contents

/-- Claim C4 (code bug): `save_weights`/`load_weights` (fr.py lines
220-234) put the blobs at `checkpoint_dir/encoder` and
`checkpoint_dir/decoder`, but `_build_checkpoint` tests
`checkpoint_dir/f/encoder` — one level too deep.  On a directory holding
exactly the blobs the class itself writes it therefore raises nothing with
`force_new=False` (first two conjuncts), contradicting the claim; and in
the nested layout where the test does fire, `force_new=True` calls
`os.remove` on a directory, which raises instead of deleting (last
conjunct). -/
theorem build_checkpoint_misses_blobs :
    buildCheckpoint [FsEntry.file "encoder"] false = CkptOutcome.ok
    ∧ buildCheckpoint [FsEntry.file "encoder", FsEntry.file "decoder"] false = CkptOutcome.ok
    ∧ buildCheckpoint [FsEntry.dir "sub" [FsEntry.file "encoder"]] false
        = CkptOutcome.fileExistsError
    ∧ buildCheckpoint [FsEntry.dir "sub" [FsEntry.file "encoder"]] true
        = CkptOutcome.isADirectoryError := by
  exact ⟨rfl, rfl, rfl, rfl⟩

lemma foldl_min_mem : ∀ (xs : List ℚ) (a : ℚ), xs.foldl min a ∈ a :: xs
  | [], a => by simp
  | y :: ys, a => by
    have h := foldl_min_mem ys (min a y)
    show List.foldl min (min a y) ys ∈ a :: y :: ys
    rcases List.mem_cons.mp h with h1 | h1
    · rw [h1]
      rcases min_choice a y with hm | hm <;> rw [hm] <;> simp
    · exact List.mem_cons_of_mem _ (List.mem_cons_of_mem _ h1)

lemma foldl_min_le : ∀ (xs : List ℚ) (a : ℚ), ∀ x ∈ a :: xs, xs.foldl min a ≤ x
  | [], a => by intro x hx; simp at hx; simp [hx]
  | y :: ys, a => by
    intro x hx
    show List.foldl min (min a y) ys ≤ x
    rcases List.mem_cons.mp hx with h1 | h1
    · subst h1
      exact le_trans (foldl_min_le ys (min x y) _ (List.mem_cons_self _ _))
        (min_le_left _ _)
    · rcases List.mem_cons.mp h1 with h2 | h2
      · subst h2
        exact le_trans (foldl_min_le ys (min a x) _ (List.mem_cons_self _ _))
          (min_le_right _ _)
      · exact foldl_min_le ys (min a y) x (List.mem_cons_of_mem _ h2)

lemma listMin_mem (l : List ℚ) (h : l ≠ []) : listMin l ∈ l := by
  cases l with
  | nil => exact absurd rfl h
  | cons x xs => exact foldl_min_mem xs x

lemma listMin_le (l : List ℚ) : ∀ x ∈ l, listMin l ≤ x := by
  cases l with
  | nil => intro x hx; simp at hx
  | cons y ys =>
    intro x hx
    exact foldl_min_le ys y x hx

lemma shouldSave_iff (acc : List ℚ) (v : ℚ) :
    shouldSave acc v = true ↔ ∀ x ∈ acc, v < x := by
  unfold shouldSave
  cases acc with
  | nil => simp
  | cons a as =>
    simp only [List.isEmpty_cons, Bool.false_or, decide_eq_true_eq]
    constructor
    · intro h x hx
      exact lt_of_lt_of_le h (listMin_le _ x hx)
    · intro h
      exact h _ (listMin_mem _ (by simp))

lemma saveFlagsAux_getD (i : ℕ) : ∀ (rest prev : List ℚ), i < rest.length →
    (saveFlagsAux prev rest).getD i false
      = shouldSave (prev ++ rest.take i) (rest.getD i 0) := by
  induction i with
  | zero =>
    intro rest prev h
    cases rest with
    | nil => simp at h
    | cons v vs => simp [saveFlagsAux]
  | succ j ih =>
    intro rest prev h
    cases rest with
    | nil => simp at h
    | cons v vs =>
      have hj : j < vs.length := by simpa using h
      have := ih vs (prev ++ [v]) hj
      simpa [saveFlagsAux, List.append_assoc] using this

/-- Claim C2: an epoch of `fit_generator` saves the paired weights iff its
mean validation loss is strictly below every previous epoch mean validation
loss (the first epoch saves vacuously), and on the loss sequence
`[0.5, 0.3, 0.4, 0.2]` exactly epochs 1, 2 and 4 save. -/
theorem fit_generator_save_iff :
    (∀ (valLosses : List ℚ) (i : ℕ), i < valLosses.length →
      ((saveFlags valLosses).getD i false = true ↔
        ∀ x ∈ valLosses.take i, valLosses.getD i 0 < x))
    ∧ saveFlags [1/2, 3/10, 2/5, 1/5] = [true, true, false, true] := by
  constructor
  · intro valLosses i hi
    rw [saveFlags, saveFlagsAux_getD i valLosses [] hi, List.nil_append]
    exact shouldSave_iff _ _
  · norm_num [saveFlags, saveFlagsAux, shouldSave, listMin, min_def]

/-- Witness for C2: the general part of the theorem applied at the epoch-3
entry (index 2) of the concrete loss sequence of the claim. -/
theorem fit_generator_save_iff_witness :
    2 < ([1/2, 3/10, 2/5, 1/5] : List ℚ).length ∧
    ((saveFlags [1/2, 3/10, 2/5, 1/5]).getD 2 false = true ↔
      ∀ x ∈ ([1/2, 3/10, 2/5, 1/5] : List ℚ).take 2,
        ([1/2, 3/10, 2/5, 1/5] : List ℚ).getD 2 0 < x) :=
  ⟨by decide, fit_generator_save_iff.1 [1/2, 3/10, 2/5, 1/5] 2 (by decide)⟩

/-- Claim C5: at the end of every epoch the learning-rate step feeds the
epoch mean training loss (the arithmetic mean of the recorded
training-phase batch losses, not the validation loss) to both plateau
schedulers, and the rate returned for logging is the decoder rate after
the scheduler steps (`current_learning_rate` reads the decoder optimizer
rate). -/
theorem next_learning_rate_uses_train_loss {ω : Type} (cfg : FRConfig)
    (upd : Params → ω → Batch → List (List ℚ) → Params × ω) (P : Params) (O : ω)
    (decSched encSched : Plateau) (tp vp : List (Batch × List (List ℚ)))
    (ts vs gbs : ℕ) :
    (doEpoch cfg upd P O decSched encSched tp vp ts vs gbs).epoch_loss
      = npMean (trainPhase cfg upd (ts / gbs) P O tp).2.2
    ∧ (doEpoch cfg upd P O decSched encSched tp vp ts vs gbs).decSched
      = decSched.step (doEpoch cfg upd P O decSched encSched tp vp ts vs gbs).epoch_loss
    ∧ (doEpoch cfg upd P O decSched encSched tp vp ts vs gbs).encSched
      = encSched.step (doEpoch cfg upd P O decSched encSched tp vp ts vs gbs).epoch_loss
    ∧ (doEpoch cfg upd P O decSched encSched tp vp ts vs gbs).lr
      = (decSched.step (doEpoch cfg upd P O decSched encSched tp vp ts vs gbs).epoch_loss).lr :=
  ⟨rfl, rfl, rfl, rfl⟩

lemma foldl_stepBoth_eq : ∀ (losses : List ℚ) (p : Plateau × Plateau), p.1 = p.2 →
    (losses.foldl stepBoth p).1 = (losses.foldl stepBoth p).2 := by
  intro losses
  induction losses with
  | nil => intro p h; exact h
  | cons m rest ih =>
    intro p h
    exact ih (stepBoth p m) (by simp [stepBoth, h])

/-- Claim C8, counterexample: the claim asserts the existence of a training
run after which the two learning rates differ; in fact no hyperparameter
configuration and no sequence of epoch training losses can make the rates
of the two identically-built, identically-fed schedulers differ. -/
theorem scheduler_rates_never_diverge :
    ¬ ∃ (cfg : FRConfig) (losses : List ℚ),
      (schedulersAfter cfg losses).1.lr ≠ (schedulersAfter cfg losses).2.lr := by
  rintro ⟨cfg, losses, hne⟩
  exact hne (congrArg Plateau.lr
    (foldl_stepBoth_eq losses (mkScheduler cfg, mkScheduler cfg) rfl))

/-- Claim C8, amended: after every training run (every sequence of epoch
training losses) the decoder and encoder learning rates are equal: both
schedulers are built by `_build_model` with the same factor, patience and
floor over optimizers starting at the same configured rate, and
`next_learning_rate` feeds both the same metric every epoch, so their
states evolve in lockstep and the rates can never diverge. -/
theorem scheduler_rates_stay_equal (cfg : FRConfig) (losses : List ℚ) :
    (schedulersAfter cfg losses).1.lr = (schedulersAfter cfg losses).2.lr :=
  congrArg Plateau.lr
    (foldl_stepBoth_eq losses (mkScheduler cfg, mkScheduler cfg) rfl)

/-- Default member used only to state positional access into batch lists. -/
def dPair : Batch × List (List ℚ) := (⟨[], [], []⟩, [])

lemma trainPhase_losses {ω : Type} (cfg : FRConfig)
    (upd : Params → ω → Batch → List (List ℚ) → Params × ω) :
    ∀ (n : ℕ) (pairs : List (Batch × List (List ℚ))) (P : Params) (O : ω),
      n ≤ pairs.length →
      (trainPhase cfg upd n P O pairs).2.2
        = (List.range n).map (fun i =>
            (doBatch cfg (paramsAfter upd (pairs.take i) P O).1
              (pairs.getD i dPair).1 (pairs.getD i dPair).2).2.2
            / (cfg.output_steps : ℚ)) := by
  intro n
  induction n with
  | zero => intro pairs P O _; rfl
  | succ k ih =>
    intro pairs P O h
    cases pairs with
    | nil => simp at h
    | cons pr rest =>
      have hk : k ≤ rest.length := by simpa using Nat.succ_le_succ_iff.mp h
      have hrec := ih rest (upd P O pr.1 pr.2).1 (upd P O pr.1 pr.2).2 hk
      show (doBatch cfg P pr.1 pr.2).2.2 / (cfg.output_steps : ℚ)
          :: (trainPhase cfg upd k (upd P O pr.1 pr.2).1 (upd P O pr.1 pr.2).2 rest).2.2
          = _
      rw [hrec, List.range_succ_eq_map, List.map_cons, List.map_map]
      congr 1

lemma validPhase_state {ω : Type} (cfg : FRConfig) :
    ∀ (n : ℕ) (P : Params) (O : ω) (pairs : List (Batch × List (List ℚ))),
      (validPhase cfg n P O pairs).1 = P ∧ (validPhase cfg n P O pairs).2.1 = O := by
  intro n
  induction n with
  | zero => intro P O pairs; exact ⟨rfl, rfl⟩
  | succ k ih =>
    intro P O pairs
    cases pairs with
    | nil => exact ⟨rfl, rfl⟩
    | cons pr rest => exact ih P O rest

lemma validPhase_losses_length {ω : Type} (cfg : FRConfig) :
    ∀ (n : ℕ) (P : Params) (O : ω) (pairs : List (Batch × List (List ℚ))),
      n ≤ pairs.length → (validPhase cfg n P O pairs).2.2.length = n := by
  intro n
  induction n with
  | zero => intro P O pairs _; rfl
  | succ k ih =>
    intro P O pairs h
    cases pairs with
    | nil => simp at h
    | cons pr rest =>
      have hk : k ≤ rest.length := by simpa using Nat.succ_le_succ_iff.mp h
      show ((doBatch cfg P pr.1 pr.2).2.2 / (cfg.output_steps : ℚ)
          :: (validPhase cfg k P O rest).2.2).length = k + 1
      simp [ih P O rest hk]

lemma swapaxes01_length (t : List (List (List ℚ))) :
    (swapaxes01 t).length = (t.headD []).length := by
  simp [swapaxes01]

/-- The content of claim C3 for one epoch: the recorded training losses are
exactly the per-batch losses over the first `train_samples / batch_size`
batches, each computed from the parameters as updated so far and divided by
`output_steps`; every per-batch loss is the sum of `output_steps` scalars,
one per predicted/target step pair; and the reported epoch losses are the
arithmetic means of the recorded lists. -/
def trainEpochSpec {ω : Type} (cfg : FRConfig)
    (upd : Params → ω → Batch → List (List ℚ) → Params × ω) (P : Params) (O : ω)
    (decSched encSched : Plateau) (tp vp : List (Batch × List (List ℚ)))
    (ts vs gbs : ℕ) : Prop :=
  (doEpoch cfg upd P O decSched encSched tp vp ts vs gbs).trainLosses
    = (List.range (ts / gbs)).map (fun i =>
        (doBatch cfg (paramsAfter upd (tp.take i) P O).1
          (tp.getD i dPair).1 (tp.getD i dPair).2).2.2 / (cfg.output_steps : ℚ))
  ∧ (doEpoch cfg upd P O decSched encSched tp vp ts vs gbs).trainLosses.length
      = ts / gbs
  ∧ (∀ (Q : Params) (b : Batch) (init : List (List ℚ)),
      b.targets.length = cfg.batch_size →
      (∀ r ∈ b.targets, r.length = cfg.output_steps) →
      0 < cfg.batch_size →
      (doBatch cfg Q b init).2.2
        = (List.zipWith cfg.lossFct (doBatch cfg Q b init).1
            (doBatch cfg Q b init).2.1).sum
      ∧ (List.zipWith cfg.lossFct (doBatch cfg Q b init).1
          (doBatch cfg Q b init).2.1).length = cfg.output_steps)
  ∧ (doEpoch cfg upd P O decSched encSched tp vp ts vs gbs).epoch_loss
      = npMean (doEpoch cfg upd P O decSched encSched tp vp ts vs gbs).trainLosses
  ∧ (doEpoch cfg upd P O decSched encSched tp vp ts vs gbs).epoch_val_loss
      = npMean (doEpoch cfg upd P O decSched encSched tp vp ts vs gbs).validLosses

/-- Claim C3: every epoch trains on exactly `floor(train_samples /
batch_size)` batches (remainder discarded), each recorded batch loss is the
summed per-step loss (one scalar per output step) divided by
`output_steps`, and the reported epoch train/validation losses are the
arithmetic means of the per-batch records. -/
theorem do_epoch_train_losses {ω : Type} (cfg : FRConfig)
    (upd : Params → ω → Batch → List (List ℚ) → Params × ω) (P : Params) (O : ω)
    (decSched encSched : Plateau) (tp vp : List (Batch × List (List ℚ)))
    (ts vs gbs : ℕ) (hlen : ts / gbs ≤ tp.length) :
    trainEpochSpec cfg upd P O decSched encSched tp vp ts vs gbs := by
  refine ⟨?_, ?_, ?_, rfl, rfl⟩
  · exact trainPhase_losses cfg upd (ts / gbs) tp P O hlen
  · rw [show (doEpoch cfg upd P O decSched encSched tp vp ts vs gbs).trainLosses
        = (trainPhase cfg upd (ts / gbs) P O tp).2.2 from rfl,
      trainPhase_losses cfg upd (ts / gbs) tp P O hlen]
    simp
  · intro Q b init htlen htrows hbpos
    refine ⟨rfl, ?_⟩
    have hpred : ((decoder_model cfg Q).forward
        ((swapaxes01 b.encInputs).getLastD [])
        ((encoder_model cfg Q).forward (swapaxes01 b.encInputs) init).2).1.length
        = cfg.output_steps :=
      decodeLoop_length (decoder_model cfg Q) cfg.output_steps _ _
    have hhead : b.targets.headD [] ∈ b.targets := by
      cases htg : b.targets with
      | nil =>
        rw [htg] at htlen
        simp at htlen
        omega
      | cons r rs => exact List.mem_cons_self _ _
    have htglen : (swapaxes01 b.targets).length = cfg.output_steps := by
      rw [swapaxes01_length]
      exact htrows _ hhead
    show (List.zipWith cfg.lossFct
        ((decoder_model cfg Q).forward ((swapaxes01 b.encInputs).getLastD [])
          ((encoder_model cfg Q).forward (swapaxes01 b.encInputs) init).2).1
        (swapaxes01 b.targets)).length = cfg.output_steps
    rw [List.length_zipWith, hpred, htglen, Nat.min_self]

/-- The content of claim C9 for one epoch: exactly `floor(valid_samples /
batch_size)` validation batches are evaluated, and the parameters and the
optimizer state after the whole validation phase equal the state reached at
the end of the training phase — validation takes no optimizer step. -/
def validFrameSpec {ω : Type} (cfg : FRConfig)
    (upd : Params → ω → Batch → List (List ℚ) → Params × ω) (P : Params) (O : ω)
    (decSched encSched : Plateau) (tp vp : List (Batch × List (List ℚ)))
    (ts vs gbs : ℕ) : Prop :=
  (doEpoch cfg upd P O decSched encSched tp vp ts vs gbs).validLosses.length
      = vs / gbs
  ∧ (doEpoch cfg upd P O decSched encSched tp vp ts vs gbs).params
      = (trainPhase cfg upd (ts / gbs) P O tp).1
  ∧ (doEpoch cfg upd P O decSched encSched tp vp ts vs gbs).opt
      = (trainPhase cfg upd (ts / gbs) P O tp).2.1

/-- Claim C9: the validation phase of every epoch evaluates exactly
`floor(valid_samples / batch_size)` batches (forward passes only, under
`torch.no_grad()`), and the encoder/decoder parameters and both optimizer
states are identical before and after the entire validation phase. -/
theorem validation_is_pure {ω : Type} (cfg : FRConfig)
    (upd : Params → ω → Batch → List (List ℚ) → Params × ω) (P : Params) (O : ω)
    (decSched encSched : Plateau) (tp vp : List (Batch × List (List ℚ)))
    (ts vs gbs : ℕ) (hlen : vs / gbs ≤ vp.length) :
    validFrameSpec cfg upd P O decSched encSched tp vp ts vs gbs := by
  refine ⟨?_, ?_, ?_⟩
  · exact validPhase_losses_length cfg (vs / gbs)
      (trainPhase cfg upd (ts / gbs) P O tp).1
      (trainPhase cfg upd (ts / gbs) P O tp).2.1 vp hlen
  · exact (validPhase_state cfg (vs / gbs)
      (trainPhase cfg upd (ts / gbs) P O tp).1
      (trainPhase cfg upd (ts / gbs) P O tp).2.1 vp).1
  · exact (validPhase_state cfg (vs / gbs)
      (trainPhase cfg upd (ts / gbs) P O tp).1
      (trainPhase cfg upd (ts / gbs) P O tp).2.1 vp).2

/-- Concrete hyperparameters for witnesses: one step, one batch element,
one dimension, one latent unit, rate 1, gamma one half, patience 1, and a
loss collaborator that is identically zero. -/
def cfgW : FRConfig := ⟨1, 1, 1, 1, 1, 1, 1/2, 1, fun _ _ => 0⟩

/-- Concrete parameters for witnesses: both GRU cells return the hidden
state unchanged, identity projection weight, zero bias. -/
def PW : Params := ⟨fun _ h => h, fun _ h => h, [[1]], [0]⟩

/-- Concrete stand-in for the torch backward/optimizer update of one batch:
the identity update. -/
def updW : Params → Unit → Batch → List (List ℚ) → Params × Unit :=
  fun P o _ _ => (P, o)

def batchW : Batch := ⟨[[[1]]], [[[5]]], [[[2]]]⟩

/-- Same encoder input and targets as `batchW`, different decoder seed. -/
def batchW2 : Batch := ⟨[[[1]]], [[[9]]], [[[2]]]⟩

def initW : List (List ℚ) := [[0]]

/-- Witness for C3: the theorem applied to a one-batch epoch with concrete
data, its batch-count hypothesis discharged by computation. -/
theorem do_epoch_train_losses_witness :
    1 / 1 ≤ [(batchW, initW)].length ∧
    trainEpochSpec cfgW updW PW () (mkScheduler cfgW) (mkScheduler cfgW)
      [(batchW, initW)] [(batchW, initW)] 1 1 1 :=
  ⟨by decide, do_epoch_train_losses cfgW updW PW () (mkScheduler cfgW)
    (mkScheduler cfgW) [(batchW, initW)] [(batchW, initW)] 1 1 1 (by decide)⟩

/-- Witness for C9: the theorem applied to a one-batch epoch with concrete
data, its batch-count hypothesis discharged by computation. -/
theorem validation_is_pure_witness :
    1 / 1 ≤ [(batchW, initW)].length ∧
    validFrameSpec cfgW updW PW () (mkScheduler cfgW) (mkScheduler cfgW)
      [(batchW, initW)] [(batchW, initW)] 1 1 1 :=
  ⟨by decide, validation_is_pure cfgW updW PW () (mkScheduler cfgW)
    (mkScheduler cfgW) [(batchW, initW)] [(batchW, initW)] 1 1 1 (by decide)⟩

/-- `np.concatenate([acc, fresh], axis=1) if len(acc) > 0 else fresh`
(fr.py lines 258-259): batch-axis concatenation of step-major tensors. -/
def concatA1 (x y : List (List (List ℚ))) : List (List (List ℚ)) :=
  if x.isEmpty then y else List.zipWith (fun r t => r ++ t) x y

/-- The test loop of `FR.predict_generator` (fr.py lines 245-260), with the
remaining step budget `test_steps - s` as fuel: each processed batch runs
the same encoder/decoder forward pass as `_do_batch` (the decoder seed is
discarded, the decoder starts from the last step of the swapped encoder
input) and the per-batch predictions and swapped targets are concatenated
along the batch axis. -/
def predictLoop (cfg : FRConfig) (P : Params) :
    ℕ → List (Batch × List (List ℚ))
    → (List (List (List ℚ))) × (List (List (List ℚ)))
    → (List (List (List ℚ))) × (List (List (List ℚ)))
  | 0, _, acc => acc
  | _ + 1, [], acc => acc
  | n + 1, pr :: rest, acc =>
    let pb := doBatch cfg P pr.1 pr.2
    predictLoop cfg P n rest (concatA1 acc.1 pb.1, concatA1 acc.2 pb.2.1)

/-- `FR.predict_generator` (fr.py lines 241-261): `test_steps` is the floor
division of the test sample count by the generator batch size; the loop
starts from empty accumulators and the pair (all predictions, all targets)
is returned. -/
def predict_generator (cfg : FRConfig) (P : Params)
    (pairs : List (Batch × List (List ℚ))) (test_samples gen_batch_size : ℕ) :
    (List (List (List ℚ))) × (List (List (List ℚ))) :=
  predictLoop cfg P (test_samples / gen_batch_size) pairs ([], [])

lemma doBatch_seed_irrel (cfg : FRConfig) (P : Params) (init : List (List ℚ))
    (b1 b2 : Batch) (h1 : b1.encInputs = b2.encInputs)
    (h2 : b1.targets = b2.targets) :
    doBatch cfg P b1 init = doBatch cfg P b2 init := by
  unfold doBatch
  rw [h1, h2]

lemma predictLoop_seed_irrel (cfg : FRConfig) (P : Params) :
    ∀ (n : ℕ) (ps qs : List (Batch × List (List ℚ)))
      (acc : (List (List (List ℚ))) × (List (List (List ℚ)))),
      List.Forall₂ (fun x y => x.1.encInputs = y.1.encInputs
        ∧ x.1.targets = y.1.targets ∧ x.2 = y.2) ps qs →
      predictLoop cfg P n ps acc = predictLoop cfg P n qs acc := by
  intro n
  induction n with
  | zero => intro ps qs acc _; rfl
  | succ k ih =>
    intro ps qs acc h
    cases ps with
    | nil =>
      cases h
      rfl
    | cons p ps2 =>
      cases h with
      | cons hpq htail =>
        rename_i q qs2
        show predictLoop cfg P k ps2
            (concatA1 acc.1 (doBatch cfg P p.1 p.2).1,
             concatA1 acc.2 (doBatch cfg P p.1 p.2).2.1) = _
        rw [doBatch_seed_irrel cfg P p.2 p.1 q.1 hpq.1 hpq.2.1, hpq.2.2]
        exact ih ps2 qs2 _ htail

/-- Claim C10: the decoder-seed component of a batch is dead data in both
training and test inference: any two batches agreeing on encoder input and
targets produce identical `_do_batch` results (predictions, targets and
loss) for the same drawn initial hidden state, and `predict_generator`
returns identical outputs on two batch streams that agree except for the
seeds, because the decoder first input is always the last step of the
encoder input window. -/
theorem decoder_seed_ignored :
    (∀ (cfg : FRConfig) (P : Params) (init : List (List ℚ)) (b1 b2 : Batch),
      b1.encInputs = b2.encInputs → b1.targets = b2.targets →
      doBatch cfg P b1 init = doBatch cfg P b2 init)
    ∧ (∀ (cfg : FRConfig) (P : Params) (ts gbs : ℕ)
        (ps qs : List (Batch × List (List ℚ))),
        List.Forall₂ (fun x y => x.1.encInputs = y.1.encInputs
          ∧ x.1.targets = y.1.targets ∧ x.2 = y.2) ps qs →
        predict_generator cfg P ps ts gbs = predict_generator cfg P qs ts gbs) := by
  constructor
  · intro cfg P init b1 b2 h1 h2
    exact doBatch_seed_irrel cfg P init b1 b2 h1 h2
  · intro cfg P ts gbs ps qs h
    exact predictLoop_seed_irrel cfg P (ts / gbs) ps qs ([], []) h

/-- Witness for C10: two concrete batches that differ only in the decoder
seed give the same `_do_batch` result. -/
theorem decoder_seed_ignored_witness :
    batchW.encInputs = batchW2.encInputs ∧ batchW.targets = batchW2.targets ∧
    batchW.decSeed ≠ batchW2.decSeed ∧
    doBatch cfgW PW batchW initW = doBatch cfgW PW batchW2 initW :=
  ⟨rfl, rfl, by decide, decoder_seed_ignored.1 cfgW PW initW batchW batchW2 rfl rfl⟩

lemma getD_mem_of_lt {α : Type} : ∀ (l : List α) (i : ℕ) (x : α),
    i < l.length → l.getD i x ∈ l
  | [], i, x, h => by simp at h
  | a :: as, 0, x, _ => by simp
  | a :: as, i + 1, x, h => by
    simp only [List.getD_cons_succ]
    exact List.mem_cons_of_mem a (getD_mem_of_lt as i x (by simpa using h))

lemma getLastD_mem_self {α : Type} : ∀ (l : List α) (x : α), l ≠ [] → l.getLastD x ∈ l
  | [], _, h => absurd rfl h
  | [a], _, _ => List.mem_cons_self a []
  | a :: b :: bs, _, _ =>
    List.mem_cons_of_mem a (getLastD_mem_self (b :: bs) a (by simp))

lemma swapaxes01_shape (t : List (List (List ℚ))) (b s d : ℕ)
    (ht : tshape t b s d) (hb : 0 < b) : tshape (swapaxes01 t) s b d := by
  obtain ⟨hlen, hmem⟩ := ht
  have hhead : t.headD [] ∈ t := by
    cases htg : t with
    | nil =>
      rw [htg] at hlen
      simp at hlen
      omega
    | cons m ms => exact List.mem_cons_self _ _
  have hhl : (t.headD []).length = s := (hmem _ hhead).1
  constructor
  · rw [swapaxes01_length, hhl]
  · intro m hm
    simp only [swapaxes01, List.mem_map, List.mem_range] at hm
    obtain ⟨i, hi, rfl⟩ := hm
    rw [hhl] at hi
    constructor
    · simp [hlen]
    · intro v hv
      simp only [List.mem_map] at hv
      obtain ⟨row, hrow, rfl⟩ := hv
      have hrs := hmem row hrow
      exact hrs.2 _ (getD_mem_of_lt row i [] (by rw [hrs.1]; exact hi))

lemma encLoop_shape (cell : List ℚ → List ℚ → List ℚ) (d L : ℕ)
    (hcell : ∀ x h, x.length = d → h.length = L → (cell x h).length = L) :
    ∀ (inputs : List (List (List ℚ))) (st : List (List ℚ)) (b : ℕ),
      (∀ m ∈ inputs, mshape m b d) → mshape st b L →
      mshape (encLoop cell inputs st).2 b L := by
  intro inputs
  induction inputs with
  | nil => intro st b _ hs; exact hs
  | cons x xs ih =>
    intro st b hx hs
    have hx0 := hx x (List.mem_cons_self _ _)
    have h2 : mshape (List.zipWith cell x st) b L := by
      have h := zipWith_cell_shape cell d L hcell x st (by rw [hx0.1, hs.1]) hx0.2 hs.2
      rw [hx0.1] at h
      exact h
    exact ih (List.zipWith cell x st) b
      (fun m hm => hx m (List.mem_cons_of_mem _ hm)) h2

/-- The shape contracts of the trainable parameters against a
configuration: each GRU cell maps a `dimensions` input and a `latent_dim`
hidden vector to a `latent_dim` vector, and the linear layer has
`dimensions` rows and bias entries. -/
def WfParams (cfg : FRConfig) (P : Params) : Prop :=
  (∀ x h, x.length = cfg.dimensions → h.length = cfg.latent_dim →
    (P.encCell x h).length = cfg.latent_dim)
  ∧ (∀ x h, x.length = cfg.dimensions → h.length = cfg.latent_dim →
    (P.decCell x h).length = cfg.latent_dim)
  ∧ P.linW.length = cfg.dimensions
  ∧ P.linBias.length = cfg.dimensions

/-- A well-shaped batch/initial-state pair as the generators yield it:
encoder input `(batch, input_steps, dimensions)`, target `(batch,
output_steps, dimensions)`, drawn initial hidden state `(batch,
latent_dim)`. -/
def WfPair (cfg : FRConfig) (pr : Batch × List (List ℚ)) : Prop :=
  tshape pr.1.encInputs cfg.batch_size cfg.input_steps cfg.dimensions
  ∧ tshape pr.1.targets cfg.batch_size cfg.output_steps cfg.dimensions
  ∧ mshape pr.2 cfg.batch_size cfg.latent_dim

instance (cfg : FRConfig) (pr : Batch × List (List ℚ)) : Decidable (WfPair cfg pr) := by
  unfold WfPair
  exact inferInstance

lemma doBatch_shape (cfg : FRConfig) (P : Params) (b : Batch)
    (init : List (List ℚ)) (hP : WfParams cfg P)
    (henc : tshape b.encInputs cfg.batch_size cfg.input_steps cfg.dimensions)
    (htgt : tshape b.targets cfg.batch_size cfg.output_steps cfg.dimensions)
    (hinit : mshape init cfg.batch_size cfg.latent_dim)
    (hb : 0 < cfg.batch_size) (hsi : 0 < cfg.input_steps) :
    tshape (doBatch cfg P b init).1 cfg.output_steps cfg.batch_size cfg.dimensions
    ∧ tshape (doBatch cfg P b init).2.1 cfg.output_steps cfg.batch_size cfg.dimensions := by
  have hswap := swapaxes01_shape b.encInputs cfg.batch_size cfg.input_steps
    cfg.dimensions henc hb
  have htswap := swapaxes01_shape b.targets cfg.batch_size cfg.output_steps
    cfg.dimensions htgt hb
  have hstates : mshape ((encoder_model cfg P).forward (swapaxes01 b.encInputs) init).2
      cfg.batch_size cfg.latent_dim :=
    encLoop_shape P.encCell cfg.dimensions cfg.latent_dim hP.1
      (swapaxes01 b.encInputs) init cfg.batch_size hswap.2 hinit
  have hne : swapaxes01 b.encInputs ≠ [] := by
    intro hnil
    have h0 := hswap.1
    rw [hnil] at h0
    simp at h0
    omega
  have hfi : mshape ((swapaxes01 b.encInputs).getLastD []) cfg.batch_size cfg.dimensions :=
    hswap.2 _ (getLastD_mem_self _ [] hne)
  have hdec := decodeLoop_shape (decoder_model cfg P) hP.2.1 hP.2.2.1 hP.2.2.2
    cfg.output_steps ((swapaxes01 b.encInputs).getLastD [])
    ((encoder_model cfg P).forward (swapaxes01 b.encInputs) init).2
    cfg.batch_size hfi hstates
  exact ⟨hdec.1, htswap⟩

lemma zipWith_append_mem : ∀ (x y : List (List (List ℚ))) (m b d : ℕ),
    (∀ r ∈ x, mshape r m d) → (∀ r ∈ y, mshape r b d) →
    ∀ v ∈ List.zipWith (fun r t => r ++ t) x y, mshape v (m + b) d := by
  intro x
  induction x with
  | nil => intro y m b d _ _ v hv; simp at hv
  | cons x0 xs ih =>
    intro y m b d hx hy v hv
    cases y with
    | nil => simp at hv
    | cons y0 ys =>
      rw [List.zipWith_cons_cons] at hv
      rcases List.mem_cons.mp hv with h | h
      · subst h
        have hx0 := hx x0 (List.mem_cons_self _ _)
        have hy0 := hy y0 (List.mem_cons_self _ _)
        constructor
        · rw [List.length_append, hx0.1, hy0.1]
        · intro w hw
          rcases List.mem_append.mp hw with h2 | h2
          · exact hx0.2 w h2
          · exact hy0.2 w h2
      · exact ih ys m b d (fun r hr => hx r (List.mem_cons_of_mem _ hr))
          (fun r hr => hy r (List.mem_cons_of_mem _ hr)) v h

lemma concatA1_shape (x y : List (List (List ℚ))) (s m b d : ℕ)
    (hx : tshape x s m d) (hy : tshape y s b d) (hs : 0 < s) :
    tshape (concatA1 x y) s (m + b) d := by
  have hne : x.isEmpty = false := by
    cases hxx : x with
    | nil =>
      rw [hxx] at hx
      have h0 := hx.1
      simp at h0
      omega
    | cons a as => rfl
  have hrw : concatA1 x y = List.zipWith (fun r t => r ++ t) x y := by
    unfold concatA1
    rw [hne]
    rfl
  rw [hrw]
  constructor
  · rw [List.length_zipWith, hx.1, hy.1, Nat.min_self]
  · exact zipWith_append_mem x y m b d hx.2 hy.2

lemma predictLoop_shape (cfg : FRConfig) (P : Params) (hP : WfParams cfg P)
    (hb : 0 < cfg.batch_size) (hsi : 0 < cfg.input_steps) (ho : 0 < cfg.output_steps) :
    ∀ (n : ℕ) (pairs : List (Batch × List (List ℚ)))
      (accP accT : List (List (List ℚ))) (m : ℕ),
      (∀ pr ∈ pairs, WfPair cfg pr) → n ≤ pairs.length →
      tshape accP cfg.output_steps m cfg.dimensions →
      tshape accT cfg.output_steps m cfg.dimensions →
      tshape (predictLoop cfg P n pairs (accP, accT)).1 cfg.output_steps
          (m + n * cfg.batch_size) cfg.dimensions
      ∧ tshape (predictLoop cfg P n pairs (accP, accT)).2 cfg.output_steps
          (m + n * cfg.batch_size) cfg.dimensions := by
  intro n
  induction n with
  | zero =>
    intro pairs accP accT m _ _ h1 h2
    simpa using ⟨h1, h2⟩
  | succ k ih =>
    intro pairs accP accT m hwf hlen h1 h2
    cases pairs with
    | nil => simp at hlen
    | cons pr rest =>
      have hw := hwf pr (List.mem_cons_self _ _)
      have hdb := doBatch_shape cfg P pr.1 pr.2 hP hw.1 hw.2.1 hw.2.2 hb hsi
      have hcp := concatA1_shape accP (doBatch cfg P pr.1 pr.2).1 cfg.output_steps m
        cfg.batch_size cfg.dimensions h1 hdb.1 ho
      have hct := concatA1_shape accT (doBatch cfg P pr.1 pr.2).2.1 cfg.output_steps m
        cfg.batch_size cfg.dimensions h2 hdb.2 ho
      have hk : k ≤ rest.length := by simpa using Nat.succ_le_succ_iff.mp hlen
      have hrec := ih rest (concatA1 accP (doBatch cfg P pr.1 pr.2).1)
        (concatA1 accT (doBatch cfg P pr.1 pr.2).2.1) (m + cfg.batch_size)
        (fun q hq => hwf q (List.mem_cons_of_mem _ hq)) hk hcp hct
      have harith : m + cfg.batch_size + k * cfg.batch_size
          = m + (k + 1) * cfg.batch_size := by ring
      rw [harith] at hrec
      exact hrec

/-- Row-major reshape of a flat list into `r` rows of `c` entries. -/
def chunkRows (r c : ℕ) (l : List ℚ) : List (List ℚ) :=
  (List.range r).map (fun i => (l.drop (i * c)).take c)

/-- `torch.Tensor.view(r, c)` on the flattened row-major data: fails
exactly when the element count differs from `r * c`. -/
def view2 (r c : ℕ) (l : List ℚ) : Option (List (List ℚ)) :=
  if l.length = r * c then some (chunkRows r c l) else none

/-- `torch.Tensor.view(s, b, d)` on the flattened row-major data. -/
def view3 (s b d : ℕ) (l : List ℚ) : Option (List (List (List ℚ))) :=
  if l.length = s * b * d then
    some ((List.range s).map
      (fun i => chunkRows b d ((l.drop (i * (b * d))).take (b * d))))
  else none

def flat2 (m : List (List ℚ)) : List ℚ := m.foldr (fun r acc => r ++ acc) []

def flat3 (t : List (List (List ℚ))) : List ℚ := t.foldr (fun m acc => flat2 m ++ acc) []

/-- `FR.predict_sample` (fr.py lines 263-269): reshape the sample to
`(input_steps, batch_size, dimensions)`, run the encoder from the drawn
initial hidden state, feed the last step of the sample (viewed as
`(1, batch_size, dimensions)`) to the decoder, and view the prediction as
`(output_steps, dimensions)`; each `.view` fails (`none`) exactly when the
element counts disagree, as `torch.Tensor.view` does. -/
def predict_sample (cfg : FRConfig) (P : Params) (sample : List (List (List ℚ)))
    (initStates : List (List ℚ)) : Option (List (List ℚ)) :=
  (view3 cfg.input_steps cfg.batch_size cfg.dimensions (flat3 sample)).bind
    (fun inp =>
      (view2 cfg.batch_size cfg.dimensions (flat2 (sample.getLastD []))).bind
        (fun decInput =>
          view2 cfg.output_steps cfg.dimensions
            (flat3 (((decoder_model cfg P).forward decInput
              ((encoder_model cfg P).forward inp initStates).2).1))))

lemma flat2_length (m : List (List ℚ)) (d : ℕ) (h : ∀ r ∈ m, r.length = d) :
    (flat2 m).length = m.length * d := by
  induction m with
  | nil => simp [flat2]
  | cons r rs ih =>
    show (r ++ flat2 rs).length = (rs.length + 1) * d
    rw [List.length_append, h r (List.mem_cons_self _ _),
      ih (fun a ha => h a (List.mem_cons_of_mem _ ha))]
    ring

lemma flat3_length (t : List (List (List ℚ))) (b d : ℕ)
    (h : ∀ m ∈ t, mshape m b d) : (flat3 t).length = t.length * (b * d) := by
  induction t with
  | nil => simp [flat3]
  | cons m ms ih =>
    show (flat2 m ++ flat3 ms).length = (ms.length + 1) * (b * d)
    have hm := h m (List.mem_cons_self _ _)
    rw [List.length_append, flat2_length m d hm.2, hm.1,
      ih (fun a ha => h a (List.mem_cons_of_mem _ ha))]
    ring

lemma chunkRows_shape (r c : ℕ) (l : List ℚ) (h : r * c ≤ l.length) :
    mshape (chunkRows r c l) r c := by
  constructor
  · simp [chunkRows]
  · intro v hv
    simp only [chunkRows, List.mem_map, List.mem_range] at hv
    obtain ⟨i, hi, rfl⟩ := hv
    rw [List.length_take, List.length_drop]
    have h1 : i * c + c ≤ l.length := by
      have h2 : (i + 1) * c ≤ r * c :=
        Nat.mul_le_mul (Nat.succ_le_of_lt hi) (le_refl c)
      calc i * c + c = (i + 1) * c := by ring
        _ ≤ r * c := h2
        _ ≤ l.length := h
    have h3 : c ≤ l.length - i * c :=
      Nat.le_sub_of_add_le (Nat.add_comm (i * c) c ▸ h1)
    exact Nat.min_eq_left h3

lemma view2_eq_some (r c : ℕ) (l : List ℚ) (h : l.length = r * c) :
    view2 r c l = some (chunkRows r c l) := by
  unfold view2
  rw [if_pos h]

lemma view3_eq_some (s b d : ℕ) (l : List ℚ) (h : l.length = s * b * d) :
    view3 s b d l = some ((List.range s).map
      (fun i => chunkRows b d ((l.drop (i * (b * d))).take (b * d)))) := by
  unfold view3
  rw [if_pos h]

lemma view3_shape (s b d : ℕ) (l : List ℚ) (h : l.length = s * b * d) :
    tshape ((List.range s).map
      (fun i => chunkRows b d ((l.drop (i * (b * d))).take (b * d)))) s b d := by
  constructor
  · simp
  · intro m hm
    simp only [List.mem_map, List.mem_range] at hm
    obtain ⟨i, hi, rfl⟩ := hm
    apply chunkRows_shape
    rw [List.length_take, List.length_drop]
    have h1 : i * (b * d) + b * d ≤ l.length := by
      have h2 : (i + 1) * (b * d) ≤ s * (b * d) :=
        Nat.mul_le_mul (Nat.succ_le_of_lt hi) (le_refl _)
      calc i * (b * d) + b * d = (i + 1) * (b * d) := by ring
        _ ≤ s * (b * d) := h2
        _ = s * b * d := by ring
        _ ≤ l.length := le_of_eq h.symm
    have h3 : b * d ≤ l.length - i * (b * d) :=
      Nat.le_sub_of_add_le (Nat.add_comm (i * (b * d)) (b * d) ▸ h1)
    exact le_min (le_refl _) h3

/-- Concrete configuration with `batch_size = 2` (one input step, one
output step, one dimension, one latent unit) used to exhibit the behaviour
of inference when the batch size does not match. -/
def cfgC6 : FRConfig := ⟨1, 1, 2, 1, 1, 1, 1/2, 1, fun _ _ => 0⟩

def batchC6 : Batch := ⟨[[[1]], [[2]]], [], [[[3]], [[4]]]⟩

def initC6 : List (List ℚ) := [[0], [0]]

/-- Claim C6, counterexample: a batch source with `test_samples = 3` and
`batch_size = 2` processes `floor(3 / 2) = 1` batch, so the concatenated
result carries `2` samples along the batch axis, not the claimed
`total_test_samples = 3`; the actual shape is `(output_steps, 2,
dimensions)`. -/
theorem predict_generator_drops_remainder :
    ¬ tshape (predict_generator cfgC6 PW [(batchC6, initC6)] 3 2).1
        cfgC6.output_steps 3 cfgC6.dimensions
    ∧ tshape (predict_generator cfgC6 PW [(batchC6, initC6)] 3 2).1
        cfgC6.output_steps 2 cfgC6.dimensions
    ∧ tshape (predict_generator cfgC6 PW [(batchC6, initC6)] 3 2).2
        cfgC6.output_steps 2 cfgC6.dimensions := by
  refine ⟨?_, ?_, ?_⟩ <;> decide

/-- Claim C6, amended: `predict_generator` returns concatenated prediction
and target tensors of shape `(output_steps, floor(test_samples /
batch_size) * batch_size, dimensions)` — equal to the claimed
`(output_steps, total_test_samples, dimensions)` exactly when the batch
size divides the test sample count. -/
theorem predict_generator_shape (cfg : FRConfig) (P : Params)
    (pairs : List (Batch × List (List ℚ))) (ts gbs : ℕ)
    (hP : WfParams cfg P) (hwf : ∀ pr ∈ pairs, WfPair cfg pr)
    (hlen : ts / gbs ≤ pairs.length) (hpos : 0 < ts / gbs)
    (hb : 0 < cfg.batch_size) (hsi : 0 < cfg.input_steps)
    (ho : 0 < cfg.output_steps) :
    tshape (predict_generator cfg P pairs ts gbs).1 cfg.output_steps
        ((ts / gbs) * cfg.batch_size) cfg.dimensions
    ∧ tshape (predict_generator cfg P pairs ts gbs).2 cfg.output_steps
        ((ts / gbs) * cfg.batch_size) cfg.dimensions := by
  obtain ⟨k, hk⟩ : ∃ k, ts / gbs = k + 1 := ⟨ts / gbs - 1, by omega⟩
  show tshape (predictLoop cfg P (ts / gbs) pairs ([], [])).1 cfg.output_steps
      ((ts / gbs) * cfg.batch_size) cfg.dimensions
    ∧ tshape (predictLoop cfg P (ts / gbs) pairs ([], [])).2 cfg.output_steps
      ((ts / gbs) * cfg.batch_size) cfg.dimensions
  rw [hk]
  cases pairs with
  | nil =>
    rw [hk] at hlen
    simp at hlen
  | cons pr rest =>
    have hw := hwf pr (List.mem_cons_self _ _)
    have hdb := doBatch_shape cfg P pr.1 pr.2 hP hw.1 hw.2.1 hw.2.2 hb hsi
    have hk2 : k ≤ rest.length := by
      rw [hk] at hlen
      simpa using Nat.succ_le_succ_iff.mp hlen
    have hrec := predictLoop_shape cfg P hP hb hsi ho k rest
      (doBatch cfg P pr.1 pr.2).1 (doBatch cfg P pr.1 pr.2).2.1 cfg.batch_size
      (fun q hq => hwf q (List.mem_cons_of_mem _ hq)) hk2 hdb.1 hdb.2
    have harith : cfg.batch_size + k * cfg.batch_size = (k + 1) * cfg.batch_size := by
      ring
    rw [harith] at hrec
    exact hrec

/-- The concrete witness parameters satisfy the shape contracts. -/
lemma wfPW : WfParams cfgW PW :=
  ⟨fun _ _ _ hh => hh, fun _ _ _ hh => hh, by decide, by decide⟩

/-- Witness for the amended C6: the theorem applied to a one-batch test
split with concrete data, every hypothesis discharged there. -/
theorem predict_generator_shape_witness :
    WfParams cfgW PW ∧ (∀ pr ∈ [(batchW, initW)], WfPair cfgW pr) ∧
    (tshape (predict_generator cfgW PW [(batchW, initW)] 1 1).1 cfgW.output_steps
        ((1 / 1) * cfgW.batch_size) cfgW.dimensions
     ∧ tshape (predict_generator cfgW PW [(batchW, initW)] 1 1).2 cfgW.output_steps
        ((1 / 1) * cfgW.batch_size) cfgW.dimensions) :=
  ⟨wfPW, by decide,
    predict_generator_shape cfgW PW [(batchW, initW)] 1 1 wfPW (by decide)
      (by decide) (by decide) (by decide) (by decide) (by decide)⟩

/-- Claim C7, counterexample: with `batch_size = 2` and a valid
`(input_steps, batch_size, dimensions)` window, the decoder prediction has
`output_steps * batch_size * dimensions = 2` elements, so the final
`.view(output_steps, dimensions)` of `predict_sample` (which needs
`output_steps * dimensions = 1` elements) fails instead of returning an
`(output_steps, dimensions)` prediction. -/
theorem predict_sample_fails_for_batch_two :
    ¬ ∃ p, predict_sample cfgC6 PW [[[1], [2]]] initC6 = some p
      ∧ mshape p cfgC6.output_steps cfgC6.dimensions := by
  rintro ⟨p, hp, -⟩
  have h0 : predict_sample cfgC6 PW [[[1], [2]]] initC6 = none := by rfl
  rw [h0] at hp
  exact Option.noConfusion hp

lemma predict_sample_eq (cfg : FRConfig) (P : Params)
    (sample : List (List (List ℚ))) (init : List (List ℚ))
    (inp : List (List (List ℚ)))
    (hv3 : view3 cfg.input_steps cfg.batch_size cfg.dimensions (flat3 sample)
      = some inp)
    (decInput : List (List ℚ))
    (hv2 : view2 cfg.batch_size cfg.dimensions (flat2 (sample.getLastD []))
      = some decInput) :
    predict_sample cfg P sample init
      = view2 cfg.output_steps cfg.dimensions
          (flat3 (((decoder_model cfg P).forward decInput
            ((encoder_model cfg P).forward inp init).2).1)) := by
  unfold predict_sample
  rw [hv3, Option.some_bind, hv2, Option.some_bind]

/-- Claim C7, amended: for every configuration with `batch_size = 1` and
every valid `(input_steps, 1, dimensions)` window, `predict_sample`
succeeds and returns a prediction of shape `(output_steps, dimensions)`;
for `batch_size ≠ 1` the final view fails instead. -/
theorem predict_sample_shape (cfg : FRConfig) (P : Params)
    (sample : List (List (List ℚ))) (init : List (List ℚ))
    (hbs : cfg.batch_size = 1) (hP : WfParams cfg P)
    (hsam : tshape sample cfg.input_steps cfg.batch_size cfg.dimensions)
    (hinit : mshape init cfg.batch_size cfg.latent_dim)
    (hsi : 0 < cfg.input_steps) :
    ∃ p, predict_sample cfg P sample init = some p
      ∧ mshape p cfg.output_steps cfg.dimensions := by
  have hflen : (flat3 sample).length
      = cfg.input_steps * cfg.batch_size * cfg.dimensions := by
    have h0 := flat3_length sample cfg.batch_size cfg.dimensions hsam.2
    rw [hsam.1] at h0
    rw [h0]
    ring
  obtain ⟨inp, hv3, hinp⟩ : ∃ inp,
      view3 cfg.input_steps cfg.batch_size cfg.dimensions (flat3 sample)
        = some inp
      ∧ tshape inp cfg.input_steps cfg.batch_size cfg.dimensions :=
    ⟨_, view3_eq_some cfg.input_steps cfg.batch_size cfg.dimensions
        (flat3 sample) hflen,
      view3_shape cfg.input_steps cfg.batch_size cfg.dimensions
        (flat3 sample) hflen⟩
  have hne : sample ≠ [] := by
    intro h0
    have h1 := hsam.1
    rw [h0] at h1
    simp at h1
    omega
  have hlast : mshape (sample.getLastD []) cfg.batch_size cfg.dimensions :=
    hsam.2 _ (getLastD_mem_self sample [] hne)
  have hflen2 : (flat2 (sample.getLastD [])).length
      = cfg.batch_size * cfg.dimensions := by
    rw [flat2_length _ cfg.dimensions hlast.2, hlast.1]
  obtain ⟨decInput, hv2, hdecIn⟩ : ∃ m,
      view2 cfg.batch_size cfg.dimensions (flat2 (sample.getLastD []))
        = some m
      ∧ mshape m cfg.batch_size cfg.dimensions :=
    ⟨_, view2_eq_some cfg.batch_size cfg.dimensions
        (flat2 (sample.getLastD [])) hflen2,
      chunkRows_shape _ _ _ (le_of_eq hflen2.symm)⟩
  have hstates : mshape ((encoder_model cfg P).forward inp init).2
      cfg.batch_size cfg.latent_dim :=
    encLoop_shape P.encCell cfg.dimensions cfg.latent_dim hP.1 inp init
      cfg.batch_size hinp.2 hinit
  have hpred := decodeLoop_shape (decoder_model cfg P) hP.2.1 hP.2.2.1 hP.2.2.2
    cfg.output_steps decInput ((encoder_model cfg P).forward inp init).2
    cfg.batch_size hdecIn hstates
  have hplen : (flat3 (((decoder_model cfg P).forward decInput
      ((encoder_model cfg P).forward inp init).2).1)).length
      = cfg.output_steps * cfg.dimensions := by
    have h0 := flat3_length _ cfg.batch_size cfg.dimensions hpred.1.2
    rw [decodeLoop_length] at h0
    show (flat3 (((decoder_model cfg P).decodeLoop cfg.output_steps decInput
        ((encoder_model cfg P).forward inp init).2)).1).length
      = cfg.output_steps * cfg.dimensions
    rw [h0, hbs]
    ring
  refine ⟨chunkRows cfg.output_steps cfg.dimensions
      (flat3 (((decoder_model cfg P).forward decInput
        ((encoder_model cfg P).forward inp init).2).1)), ?_, ?_⟩
  · rw [predict_sample_eq cfg P sample init inp hv3 decInput hv2]
    exact view2_eq_some cfg.output_steps cfg.dimensions _ hplen
  · exact chunkRows_shape _ _ _ (le_of_eq hplen.symm)

/-- Witness for the amended C7: the theorem applied at a `batch_size = 1`
configuration and a concrete one-step window, every hypothesis discharged
there. -/
theorem predict_sample_shape_witness :
    cfgW.batch_size = 1 ∧ WfParams cfgW PW ∧
    tshape [[[(1 : ℚ)]]] cfgW.input_steps cfgW.batch_size cfgW.dimensions ∧
    (∃ p, predict_sample cfgW PW [[[(1 : ℚ)]]] initW = some p
      ∧ mshape p cfgW.output_steps cfgW.dimensions) :=
  ⟨rfl, wfPW, by decide,
    predict_sample_shape cfgW PW [[[(1 : ℚ)]]] initW rfl wfPW (by decide)
      (by decide) (by decide)⟩
